import Mathlib

/-
Shallow embedding of the knowledge-retrieval engine of the TYT-AYT platform:
the class RAGSystem of src/tyt-ayt-backend-only/utils/database.js (tokenizer,
chunker, term-weight model, cosine scoring, search, question answering,
category listing and statistics) together with the query validation performed
by the /search route of src/tyt-ayt-backend-only/routes/rag.js.

Modelling conventions:
 - JS strings are lists of characters (List Char); JS string methods
   (split with a character-class regex, trim, slice, toLowerCase) are
   translated character by character below.
 - JS numbers are exact: term weights are rationals, similarity scores are
   reals (Math.sqrt).  The one place where IEEE arithmetic is observable,
   the 0/0 = NaN in getDocumentStats, is modelled explicitly with Option.
 - JS Maps and Sets iterate in insertion order; they are modelled as lists
   in insertion order.
 - Array.prototype.sort is stable (ECMAScript 2019); the stable sort by the
   comparator (a, b) => b.score - a.score is modelled by a stable insertion
   sort with the total preorder fun a b => b.score <= a.score.
-/

namespace RAG

/-- Index terms are normalized strings, modelled as character lists. -/
abbrev Token := List Char

/-! ## Tokenizer (database.js lines 893-899 and the stop-word set of lines 715-718) -/

/-- The stop-word set of the RAGSystem constructor (database.js lines 715-718). -/
def stopWords : List Token :=
  [['v','e'], ['v','e','y','a'], ['a','m','a'], ['ç','ü','n','k','ü'], ['k','i'],
   ['i','ç','i','n'], ['o','l','a','r','a','k'], ['i','l','e'], ['d','a'], ['d','e'],
   ['t','h','e'], ['i','s'], ['a','r','e'], ['a','n','d'], ['o','r'], ['b','u','t'],
   ['b','e','c','a','u','s','e'], ['i','n'], ['o','n'], ['a','t'], ['t','o'],
   ['f','o','r'], ['o','f'], ['w','i','t','h'], ['b','y']]

/-- The Turkish letters kept by the character class of the replace regex
(database.js line 896). -/
def turkishChars : List Char := ['ğ','ü','ş','ı','ö','ç','Ğ','Ü','Ş','İ','Ö','Ç']

/-- A character matching the regex \w (ASCII letters, digits, underscore). -/
def isWordChar (c : Char) : Bool := c.isAlphanum || c = '_' || turkishChars.contains c

/-- A character matching the regex \s; JS whitespace restricted to the ASCII
whitespace characters covered by Char.isWhitespace. -/
def isWs (c : Char) : Bool := c.isWhitespace

/-- JS String.toLowerCase per character.  The uppercase Turkish letters of the
kept character class are mapped to their lowercase forms ('İ' is mapped to the
plain i; JS produces i plus a combining dot, which no later step of the code
distinguishes from other non-matching characters of length-filtered tokens). -/
def toLowerJs (c : Char) : Char :=
  if c = 'Ğ' then 'ğ' else if c = 'Ü' then 'ü' else if c = 'Ş' then 'ş'
  else if c = 'İ' then 'i' else if c = 'Ö' then 'ö' else if c = 'Ç' then 'ç'
  else c.toLower

/-- Prepend a character to the first segment of a segment list. -/
def consHead (c : Char) : List (List Char) → List (List Char)
  | [] => [[c]]
  | s :: ss => (c :: s) :: ss

/-- JS String.split with a one-character-class-plus regex such as /[.!?]+/ or
/\s+/: maximal runs of matching characters separate the segments, and a
leading or trailing run produces a leading or trailing empty segment.  The
Boolean argument records whether the previous character belonged to a run. -/
def splitRunsAux (p : Char → Bool) : Bool → List Char → List (List Char)
  | _, [] => [[]]
  | inRun, c :: cs =>
    if p c then
      if inRun then splitRunsAux p true cs
      else [] :: splitRunsAux p true cs
    else consHead c (splitRunsAux p false cs)

/-- JS text.split(regex) for a character-class run regex. -/
def splitRuns (p : Char → Bool) (l : List Char) : List (List Char) :=
  splitRunsAux p false l

/-- RAGSystem.tokenize (database.js lines 893-899): lower-case, replace every
character that is neither a word character nor whitespace nor a kept Turkish
letter by a space, split on whitespace runs, and keep tokens of length
greater than two that are not stop-words. -/
def tokenize (text : List Char) : List Token :=
  (splitRuns isWs
      ((text.map toLowerJs).map fun c => if isWordChar c || isWs c then c else ' ')).filter
    fun t => decide (2 < t.length) && !(stopWords.contains t)

/-! ## Chunker (database.js lines 852-877) -/

/-- A sentence delimiter of the split regex /[.!?]+/ (database.js line 853). -/
def isDelim (c : Char) : Bool := c = '.' || c = '!' || c = '?'

/-- content.split(/[.!?]+/) of database.js line 853. -/
def splitSentences (content : List Char) : List (List Char) :=
  splitRuns isDelim content

/-- JS String.trim, left half: drop leading whitespace. -/
def trimLeft (l : List Char) : List Char := l.dropWhile isWs

/-- JS String.trim, right half: drop trailing whitespace. -/
def trimRight (l : List Char) : List Char := (l.reverse.dropWhile isWs).reverse

/-- JS String.trim. -/
def jsTrim (l : List Char) : List Char := trimRight (trimLeft l)

/-- JS String.slice(-n): the last min(n, length) characters, except that
slice(-0) is slice(0), the whole string. -/
def jsSliceFromEnd (l : List Char) (n : Nat) : List Char :=
  if n = 0 then l else l.drop (l.length - n)

/-- The mutable loop state of chunkDocument: the chunks pushed so far and the
currentChunk buffer. -/
structure ChunkAcc where
  chunks : List (List Char)
  current : List Char

/-- One iteration of the for-loop of chunkDocument (database.js lines
857-870).  When adding the next sentence would push the buffer past maxLength
and the buffer is non-empty, the trimmed buffer is closed as a chunk and the
next buffer is seeded with the last overlap characters of the chunk just
closed (the chunks.length > 0 guard of line 863 is the getLast? match);
otherwise the sentence plus a synthetic terminator is appended to the buffer. -/
def chunkStep (maxLength overlap : Nat) (st : ChunkAcc) (sentence : List Char) : ChunkAcc :=
  if maxLength < st.current.length + sentence.length ∧ 0 < st.current.length then
    let closed := st.chunks ++ [jsTrim st.current]
    let seeded :=
      match closed.getLast? with
      | some last => jsSliceFromEnd last overlap ++ (sentence ++ ['.'])
      | none => sentence ++ ['.']
    ⟨closed, seeded⟩
  else
    ⟨st.chunks, st.current ++ sentence ++ ['.']⟩

/-- RAGSystem.chunkDocument (database.js lines 852-877).  The JS defaults are
maxLength = 500 and overlap = 50; callers inside the class always use the
defaults. -/
def chunkDocument (content : List Char) (maxLength overlap : Nat) : List (List Char) :=
  let final := (splitSentences content).foldl (chunkStep maxLength overlap) ⟨[], []⟩
  if jsTrim final.current ≠ [] then final.chunks ++ [jsTrim final.current]
  else final.chunks

/-! ## Term-weight model (database.js lines 901-915) -/

/-- A sparse term-weight vector: a JS object mapping terms to numbers.  The
support holds the object keys; a lookup of any other term yields 0 via the
|| 0 fallback of the code. -/
structure TermVec where
  support : Finset Token
  w : Token → ℚ

/-- vec[term] || 0 (database.js lines 962-963). -/
def lookup (v : TermVec) (t : Token) : ℚ :=
  if t ∈ v.support then v.w t else 0

/-- RAGSystem.calculateTFIDF (database.js lines 901-915): the raw frequency of
each distinct token divided by the total token count.  Despite the name, no
inverse-document-frequency factor is computed. -/
def calculateTFIDF (tokens : List Token) : TermVec :=
  { support := tokens.toFinset
    w := fun t => (tokens.count t : ℚ) / (tokens.length : ℚ) }

/-! ## Cosine similarity (database.js lines 955-973) -/

/-- The dotProduct accumulator of cosineSimilarity: sum over the union of the
key sets of both vectors. -/
def dotProduct (v1 v2 : TermVec) : ℚ :=
  ∑ t ∈ v1.support ∪ v2.support, lookup v1 t * lookup v2 t

/-- The norm1 accumulator of cosineSimilarity (sum of val1 * val1 over the
union of the key sets). -/
def norm1 (v1 v2 : TermVec) : ℚ :=
  ∑ t ∈ v1.support ∪ v2.support, lookup v1 t * lookup v1 t

/-- The norm2 accumulator of cosineSimilarity (sum of val2 * val2 over the
union of the key sets). -/
def norm2 (v1 v2 : TermVec) : ℚ :=
  ∑ t ∈ v1.support ∪ v2.support, lookup v2 t * lookup v2 t

/-- RAGSystem.cosineSimilarity (database.js lines 955-973): 0 when either
accumulated square norm is 0, otherwise the dot product divided by the
product of the Euclidean norms. -/
noncomputable def cosineSimilarity (v1 v2 : TermVec) : ℝ :=
  if norm1 v1 v2 = 0 ∨ norm2 v1 v2 = 0 then 0
  else (dotProduct v1 v2 : ℝ) /
    (Real.sqrt ((norm1 v1 v2 : ℝ)) * Real.sqrt ((norm2 v1 v2 : ℝ)))

/-! ## Passage index state -/

/-- A knowledgeBase record (database.js lines 830-835).  The uuid is modelled
as a caller-supplied numeric identifier; the createdAt wall-clock timestamp is
not modelled. -/
structure Document where
  id : Nat
  title : List Char
  content : List Char
  category : List Char
  tags : List (List Char)
  chunks : Nat

/-- A documentChunks record (database.js lines 838-848).  The chunk id string
id_index is modelled as the pair (document id, index).  The embedding field is
written by createEmbeddings (database.js lines 879-891) as
calculateTFIDF(tokenize(content)) before the system is marked initialized; it
is stored here at chunk creation, since no claim observes a chunk between
addDocument and createEmbeddings. -/
structure Chunk where
  id : Nat × Nat
  parentId : Nat
  title : List Char
  content : List Char
  category : List Char
  tags : List (List Char)
  index : Nat
  embedding : TermVec

/-- The mutable state of the RAGSystem singleton: the initialized flag and the
two insertion-ordered maps. -/
structure RAGState where
  initialized : Bool
  knowledgeBase : List Document
  documentChunks : List Chunk

/-- The input shape consumed by addDocument (title, content, category, tags). -/
structure DocumentInput where
  title : List Char
  content : List Char
  category : List Char
  tags : List (List Char)

/-- RAGSystem.addDocument (database.js lines 826-850): chunk the content with
the default maxLength and overlap, store the document record, and store one
chunk record per chunk (embeddings as produced by createEmbeddings; see
Chunk). -/
def addDocument (st : RAGState) (doc : DocumentInput) (id : Nat) : RAGState :=
  let chunks := chunkDocument doc.content 500 50
  { initialized := st.initialized
    knowledgeBase := st.knowledgeBase ++
      [{ id := id, title := doc.title, content := doc.content,
         category := doc.category, tags := doc.tags, chunks := chunks.length }]
    documentChunks := st.documentChunks ++
      chunks.mapIdx fun i chunk =>
        { id := (id, i), parentId := id, title := doc.title, content := chunk,
          category := doc.category, tags := doc.tags, index := i,
          embedding := calculateTFIDF (tokenize chunk) } }

/-! ## Search (database.js lines 917-953) -/

/-- The options object of search with the destructuring defaults category =
null, maxResults = 5, minScore = 0.1 (database.js lines 922-926); callers
passing a partial object get the defaults for the missing fields. -/
structure SearchOptions where
  category : Option (List Char)
  maxResults : Nat
  minScore : ℝ

/-- An element of the scores array (database.js lines 941-946).  The
highlights field (highlightMatches, database.js lines 975-995) is not
modelled: no claim mentions it, and its computation feeds nothing else. -/
structure SearchResult where
  chunkId : Nat × Nat
  score : ℝ
  chunk : Chunk

/-- The category skip of the scan loop: category && chunk.category !==
category (database.js line 936). -/
def skipByCategory (category : Option (List Char)) (chunk : Chunk) : Bool :=
  match category with
  | some c => chunk.category ≠ c
  | none => false

/-- The error thrown by search before initialization (database.js line 919). -/
inductive RagError where
  | notInitialized
deriving DecidableEq

/-- The scan loop of search (database.js lines 933-948): every stored chunk in
insertion order, skipping category mismatches and scores below minScore. -/
noncomputable def searchCandidates (st : RAGState) (query : List Char)
    (opts : SearchOptions) : List SearchResult :=
  let queryEmbedding := calculateTFIDF (tokenize query)
  st.documentChunks.filterMap fun chunk =>
    if skipByCategory opts.category chunk then none
    else if opts.minScore ≤ cosineSimilarity queryEmbedding chunk.embedding then
      some ⟨chunk.id, cosineSimilarity queryEmbedding chunk.embedding, chunk⟩
    else none

/-- The descending-score order of the sort comparator (a, b) => b.score -
a.score (database.js line 951). -/
def byScoreDesc (a b : SearchResult) : Prop := b.score ≤ a.score

noncomputable instance : DecidableRel byScoreDesc :=
  fun a b => Real.decidableLE b.score a.score

/-- Sort and truncation of search (database.js lines 951-952): the stable
sort by descending score followed by slice(0, maxResults). -/
noncomputable def rankedSearch (st : RAGState) (query : List Char)
    (opts : SearchOptions) : List SearchResult :=
  (List.insertionSort byScoreDesc (searchCandidates st query opts)).take opts.maxResults

/-- RAGSystem.search (database.js lines 917-953): throws when the system is
not initialized, otherwise returns the ranked, truncated scan results.  Note
that no validation of the query string happens here. -/
noncomputable def search (st : RAGState) (query : List Char)
    (opts : SearchOptions) : Except RagError (List SearchResult) :=
  if st.initialized then Except.ok (rankedSearch st query opts)
  else Except.error RagError.notInitialized

/-! ## Question answering (database.js lines 997-1016) -/

/-- The object returned by answerQuestion (the wall-clock timestamp field is
not modelled). -/
structure QAResult where
  question : List Char
  context : List Char
  searchResults : List SearchResult
  hasRelevantInfo : Bool

/-- RAGSystem.answerQuestion (database.js lines 997-1016): search with
maxResults = 3 (hence default category = null and minScore = 0.1), join the
matched chunk bodies with blank lines, append the caller context lines after
a blank line when present. -/
noncomputable def answerQuestion (st : RAGState) (question : List Char)
    (context : List (List Char)) : Except RagError QAResult :=
  match search st question ⟨none, 3, 1/10⟩ with
  | Except.error e => Except.error e
  | Except.ok searchResults =>
    let ctx1 :=
      if 0 < searchResults.length then
        List.intercalate ['\n','\n'] (searchResults.map fun r => r.chunk.content)
      else []
    let ctx2 :=
      if 0 < context.length then ctx1 ++ ['\n','\n'] ++ List.intercalate ['\n'] context
      else ctx1
    Except.ok ⟨question, ctx2, searchResults, decide (0 < searchResults.length)⟩

/-! ## Categories and statistics (database.js lines 1018-1035) -/

/-- RAGSystem.getCategories (database.js lines 1018-1024): the distinct chunk
categories in first-insertion order (JS Set semantics). -/
def getCategories (st : RAGState) : List (List Char) :=
  st.documentChunks.foldl
    (fun acc chunk => if chunk.category ∈ acc then acc else acc ++ [chunk.category]) []

/-- The object returned by getDocumentStats.  avgChunksPerDocument is
documentChunks.size / knowledgeBase.size in JS; with an empty knowledgeBase
this divides by zero and yields the non-finite IEEE values NaN (0/0) or
Infinity, modelled as none. -/
structure DocumentStats where
  totalDocuments : Nat
  totalChunks : Nat
  categories : List (List Char)
  avgChunksPerDocument : Option ℚ

/-- RAGSystem.getDocumentStats (database.js lines 1026-1035). -/
def getDocumentStats (st : RAGState) : DocumentStats :=
  { totalDocuments := st.knowledgeBase.length
    totalChunks := st.documentChunks.length
    categories := getCategories st
    avgChunksPerDocument :=
      if st.knowledgeBase.length = 0 then none
      else some ((st.documentChunks.length : ℚ) / (st.knowledgeBase.length : ℚ)) }

/-! ## The /search route (routes/rag.js lines 7-62) -/

/-- The three outcomes of the route handler: the 400 validation response, the
500 catch-all response, and the 200 payload (only the raw result list is
modelled; the JSON formatting of lines 29-52 adds no information relevant to
any claim). -/
inductive RouteResponse where
  | badRequest
  | serverError
  | okJson (results : List SearchResult)

/-- The /search handler (routes/rag.js lines 7-62): reject a missing or empty
or whitespace-only query with the 400 validation error before invoking the
engine, otherwise call RAGSystem.search on the trimmed query and map a thrown
error to the 500 response. -/
noncomputable def searchRoute (st : RAGState) (query : Option (List Char))
    (opts : SearchOptions) : RouteResponse :=
  match query with
  | none => RouteResponse.badRequest
  | some q =>
    if q.isEmpty || (jsTrim q).isEmpty then RouteResponse.badRequest
    else
      match search st (jsTrim q) opts with
      | Except.ok rs => RouteResponse.okJson rs
      | Except.error _ => RouteResponse.serverError

end RAG

namespace RAG

/-! ## Helper lemmas about splitting, trimming and slicing -/

theorem consHead_ne_nil (c : Char) (ss : List (List Char)) : consHead c ss ≠ [] := by
  cases ss <;> simp [consHead]

theorem splitRunsAux_ne_nil (p : Char → Bool) :
    ∀ (cs : List Char) (inRun : Bool), splitRunsAux p inRun cs ≠ [] := by
  intro cs
  induction cs with
  | nil => intro inRun; simp [splitRunsAux]
  | cons c cs ih =>
    intro inRun
    by_cases hp : p c
    · cases inRun
      · simp only [splitRunsAux, hp, if_true, Bool.false_eq_true, if_false]
        simp
      · simp only [splitRunsAux, hp, if_true]
        exact ih true
    · simp [splitRunsAux, hp]
      exact consHead_ne_nil c _

theorem splitRuns_ne_nil (p : Char → Bool) (l : List Char) : splitRuns p l ≠ [] :=
  splitRunsAux_ne_nil p l false

/-- The buffer text produced by running the accumulation loop of chunkDocument
over a segment list without ever closing a chunk: every segment followed by
the synthetic terminator. -/
def normalizeSegs : List (List Char) → List Char
  | [] => []
  | s :: rest => s ++ '.' :: normalizeSegs rest

theorem normalizeSegs_consHead (c : Char) (ss : List (List Char)) (h : ss ≠ []) :
    normalizeSegs (consHead c ss) = c :: normalizeSegs ss := by
  cases ss with
  | nil => exact absurd rfl h
  | cons s rest => simp [consHead, normalizeSegs]

theorem normalizeSegs_splitRunsAux_length (p : Char → Bool) :
    ∀ (cs : List Char) (inRun : Bool),
      (normalizeSegs (splitRunsAux p inRun cs)).length ≤ cs.length + 1 := by
  intro cs
  induction cs with
  | nil => intro inRun; simp [splitRunsAux, normalizeSegs]
  | cons c cs ih =>
    intro inRun
    by_cases hp : p c
    · cases inRun
      · simp only [splitRunsAux, hp, if_true, Bool.false_eq_true, if_false, normalizeSegs,
          List.nil_append, List.length_cons, List.length_append]
        have := ih true
        omega
      · simp only [splitRunsAux, hp, if_true]
        have := ih true
        simpa using Nat.le_trans this (by omega)
    · simp only [splitRunsAux, hp, Bool.false_eq_true, if_false]
      rw [normalizeSegs_consHead c _ (splitRunsAux_ne_nil p cs false)]
      have := ih false
      simp only [List.length_cons]
      omega

theorem mem_dropWhile_of_not {p : Char → Bool} {x : Char} :
    ∀ {l : List Char}, x ∈ l → p x = false → x ∈ l.dropWhile p := by
  intro l
  induction l with
  | nil => intro h; simp at h
  | cons c cs ih =>
    intro hx hpx
    by_cases hc : p c
    · rw [List.dropWhile_cons, if_pos hc]
      rcases List.mem_cons.mp hx with rfl | hx'
      · rw [hc] at hpx; cases hpx
      · exact ih hx' hpx
    · rw [List.dropWhile_cons, if_neg hc]
      exact hx

theorem dropWhile_append_of_forall {p : Char → Bool} {l₁ : List Char} (l₂ : List Char)
    (h : ∀ x ∈ l₁, p x = true) : (l₁ ++ l₂).dropWhile p = l₂.dropWhile p := by
  induction l₁ with
  | nil => simp
  | cons c cs ih =>
    have hc := h c (by simp)
    simp only [List.cons_append, List.dropWhile_cons, hc, if_true]
    exact ih fun x hx => h x (by simp [hx])

theorem trimLeft_append_of_not_all_ws {l₁ : List Char} (l₂ : List Char)
    (h : ∃ x ∈ l₁, isWs x = false) : trimLeft (l₁ ++ l₂) = trimLeft l₁ ++ l₂ := by
  induction l₁ with
  | nil => rcases h with ⟨x, hx, _⟩; simp at hx
  | cons c cs ih =>
    by_cases hc : isWs c
    · simp only [trimLeft, List.cons_append, List.dropWhile_cons, hc, if_true]
      rcases h with ⟨x, hx, hxw⟩
      rcases List.mem_cons.mp hx with rfl | hx'
      · rw [hc] at hxw; cases hxw
      · exact ih ⟨x, hx', hxw⟩
    · simp only [trimLeft, List.cons_append, List.dropWhile_cons, hc, Bool.false_eq_true,
        if_false]

theorem trimRight_of_getLast_not_ws {l : List Char} {c : Char}
    (h : l.getLast? = some c) (hw : isWs c = false) : trimRight l = l := by
  rcases List.getLast?_eq_some_iff.mp h with ⟨ys, rfl⟩
  simp only [trimRight, List.reverse_append, List.reverse_cons, List.reverse_nil,
    List.nil_append, List.singleton_append, List.dropWhile_cons, hw, Bool.false_eq_true,
    if_false, List.reverse_cons, List.reverse_reverse]

/-- A list ending with the synthetic sentence terminator. -/
def endsDot (l : List Char) : Prop := l.getLast? = some '.'

theorem endsDot_concat (l : List Char) : endsDot (l ++ ['.']) :=
  List.getLast?_concat l

theorem endsDot_ne_nil {l : List Char} (h : endsDot l) : l ≠ [] := by
  rcases List.getLast?_eq_some_iff.mp h with ⟨ys, rfl⟩
  simp

theorem isWs_dot : isWs '.' = false := rfl

theorem trimLeft_endsDot {l : List Char} (h : endsDot l) : endsDot (trimLeft l) := by
  rcases List.getLast?_eq_some_iff.mp h with ⟨ys, rfl⟩
  by_cases hall : ∀ x ∈ ys, isWs x = true
  · unfold trimLeft
    rw [dropWhile_append_of_forall ['.'] hall]
    simp [List.dropWhile_cons, isWs_dot, endsDot]
  · push_neg at hall
    rcases hall with ⟨x, hx, hxw⟩
    rw [trimLeft_append_of_not_all_ws ['.'] ⟨x, hx, Bool.not_eq_true _ ▸ (by simpa using hxw)⟩]
    exact endsDot_concat _

theorem jsTrim_of_endsDot {l : List Char} (h : endsDot l) :
    jsTrim l = trimLeft l ∧ endsDot (jsTrim l) ∧ jsTrim l ≠ [] := by
  have h1 : endsDot (trimLeft l) := trimLeft_endsDot h
  have h2 : jsTrim l = trimLeft l := trimRight_of_getLast_not_ws h1 isWs_dot
  exact ⟨h2, h2 ▸ h1, h2 ▸ endsDot_ne_nil h1⟩

theorem jsTrim_ne_nil_of_mem_not_ws {l : List Char} {x : Char}
    (hx : x ∈ l) (hw : isWs x = false) : jsTrim l ≠ [] := by
  intro hcontra
  have h1 : x ∈ trimLeft l := mem_dropWhile_of_not hx hw
  have h2 : (trimLeft l).reverse.dropWhile isWs = [] := by
    have := congrArg List.reverse hcontra
    simpa [jsTrim, trimRight] using this
  have h3 : ∀ y ∈ (trimLeft l).reverse, isWs y = true := List.dropWhile_eq_nil_iff.mp h2
  have := h3 x (List.mem_reverse.mpr h1)
  rw [hw] at this; cases this

theorem jsSliceFromEnd_suffix (l : List Char) (n : Nat) : jsSliceFromEnd l n <:+ l := by
  unfold jsSliceFromEnd
  split
  · exact List.suffix_rfl
  · exact List.drop_suffix _ _

theorem jsSliceFromEnd_endsDot {l : List Char} (n : Nat) (h : endsDot l) :
    endsDot (jsSliceFromEnd l n) := by
  rcases List.getLast?_eq_some_iff.mp h with ⟨ys, rfl⟩
  unfold jsSliceFromEnd
  split
  · exact endsDot_concat _
  · rename_i hn
    have hlen : (ys ++ ['.']).length - n ≤ ys.length := by
      simp only [List.length_append, List.length_singleton]
      omega
    rw [List.drop_append_of_le_length hlen]
    exact endsDot_concat _

end RAG

namespace RAG

/-! ## The single-chunk regime of the chunker -/

theorem dot_mem_normalizeSegs {segs : List (List Char)} (h : segs ≠ []) :
    '.' ∈ normalizeSegs segs := by
  cases segs with
  | nil => exact absurd rfl h
  | cons s rest => simp [normalizeSegs]

theorem foldl_chunkStep_small (maxLength overlap : Nat) :
    ∀ (segs : List (List Char)) (buf : List Char),
      buf.length + (normalizeSegs segs).length ≤ maxLength + 1 →
      segs.foldl (chunkStep maxLength overlap) ⟨[], buf⟩ =
        ⟨[], buf ++ normalizeSegs segs⟩ := by
  intro segs
  induction segs with
  | nil => intro buf h; simp [normalizeSegs]
  | cons s rest ih =>
    intro buf h
    have hlen : (normalizeSegs (s :: rest)).length
        = s.length + 1 + (normalizeSegs rest).length := by
      simp [normalizeSegs]; omega
    have hcond : ¬ (maxLength < buf.length + s.length ∧ 0 < buf.length) := by
      intro hc
      have := hc.1
      omega
    have hstep : chunkStep maxLength overlap ⟨[], buf⟩ s = ⟨[], buf ++ s ++ ['.']⟩ := by
      simp only [chunkStep, if_neg hcond]
    rw [List.foldl_cons, hstep, ih (buf ++ s ++ ['.']) (by simp; omega)]
    simp [normalizeSegs]

/-- The core of claim C7: a body whose terminator-normalized form fits inside
maxLength + 1 characters is chunked into the single trimmed normalized body. -/
theorem chunkDocument_single (content : List Char) (maxLength overlap : Nat)
    (h : (normalizeSegs (splitSentences content)).length ≤ maxLength + 1) :
    chunkDocument content maxLength overlap
      = [jsTrim (normalizeSegs (splitSentences content))] := by
  have hfold := foldl_chunkStep_small maxLength overlap (splitSentences content) []
    (by simpa using h)
  have hne : jsTrim (normalizeSegs (splitSentences content)) ≠ [] :=
    jsTrim_ne_nil_of_mem_not_ws
      (dot_mem_normalizeSegs (splitRuns_ne_nil isDelim content)) isWs_dot
  simp only [chunkDocument, hfold, List.nil_append, if_pos hne]

theorem normalizeSegs_length_le (content : List Char) :
    (normalizeSegs (splitSentences content)).length ≤ content.length + 1 :=
  normalizeSegs_splitRunsAux_length isDelim content false

end RAG

namespace RAG

/-! ## The overlap invariant of the chunker -/

/-- The text with which the buffer seeded from a closed chunk starts once the
final trim is applied: the last overlap characters of the closed chunk with
leading whitespace removed. -/
def overlapSeed (overlap : Nat) (a : List Char) : List Char :=
  trimLeft (jsSliceFromEnd a overlap)

/-- The adjacency property of consecutive chunks: the seed taken from the
earlier chunk is both a suffix of the earlier chunk and a prefix of the later
chunk. -/
def overlapLink (overlap : Nat) (a b : List Char) : Prop :=
  overlapSeed overlap a <:+ a ∧ overlapSeed overlap a <+: b

theorem overlapSeed_suffix (overlap : Nat) (a : List Char) :
    overlapSeed overlap a <:+ a :=
  List.IsSuffix.trans (List.dropWhile_suffix isWs) (jsSliceFromEnd_suffix a overlap)

theorem endsDot_mem {l : List Char} (h : endsDot l) : '.' ∈ l := by
  rcases List.getLast?_eq_some_iff.mp h with ⟨ys, rfl⟩
  simp

theorem jsTrim_append_dot {X : List Char} (hx : ∃ x ∈ X, isWs x = false)
    (t : List Char) : jsTrim (X ++ t ++ ['.']) = trimLeft X ++ t ++ ['.'] := by
  have h3 : endsDot (X ++ t ++ ['.']) := endsDot_concat _
  rw [(jsTrim_of_endsDot h3).1, List.append_assoc X t ['.'],
    trimLeft_append_of_not_all_ws _ hx, ← List.append_assoc]

theorem chunkStep_eq_close (maxLength overlap : Nat) (st : ChunkAcc) (s : List Char)
    (hc : maxLength < st.current.length + s.length ∧ 0 < st.current.length) :
    chunkStep maxLength overlap st s =
      ⟨st.chunks ++ [jsTrim st.current],
        jsSliceFromEnd (jsTrim st.current) overlap ++ (s ++ ['.'])⟩ := by
  simp only [chunkStep, if_pos hc, List.getLast?_concat]

theorem chunkStep_eq_append (maxLength overlap : Nat) (st : ChunkAcc) (s : List Char)
    (hc : ¬ (maxLength < st.current.length + s.length ∧ 0 < st.current.length)) :
    chunkStep maxLength overlap st s = ⟨st.chunks, st.current ++ s ++ ['.']⟩ := by
  simp only [chunkStep, if_neg hc]

/-- The loop invariant of chunkDocument: all closed chunks end with the
synthetic terminator, consecutive closed chunks are linked by the overlap
seed, a non-empty buffer ends with the terminator, the buffer is empty only
before the first append, and the trimmed buffer continues the seed of the
last closed chunk. -/
structure ChunkInv (overlap : Nat) (st : ChunkAcc) : Prop where
  chunksDot : ∀ c ∈ st.chunks, endsDot c
  chain : st.chunks.Chain' (overlapLink overlap)
  curNil : st.current = [] → st.chunks = []
  curDot : st.current ≠ [] → endsDot st.current
  link : ∀ p, st.chunks.getLast? = some p → overlapSeed overlap p <+: jsTrim st.current

theorem chunkInv_init (overlap : Nat) : ChunkInv overlap ⟨[], []⟩ := by
  refine ⟨?_, ?_, ?_, ?_, ?_⟩
  · intro c hc; simp at hc
  · exact List.chain'_nil
  · intro _; rfl
  · intro h; exact absurd rfl h
  · intro p hp; simp at hp

theorem chunkStep_inv (maxLength overlap : Nat) (st : ChunkAcc) (s : List Char)
    (h : ChunkInv overlap st) : ChunkInv overlap (chunkStep maxLength overlap st s) := by
  by_cases hc : maxLength < st.current.length + s.length ∧ 0 < st.current.length
  · rw [chunkStep_eq_close maxLength overlap st s hc]
    have hcur_ne : st.current ≠ [] := by
      intro hnil
      rw [hnil] at hc
      simp at hc
    have hcurDot : endsDot st.current := h.curDot hcur_ne
    obtain ⟨htrim_eq, htrimDot, htrim_ne⟩ := jsTrim_of_endsDot hcurDot
    have hsliceDot : endsDot (jsSliceFromEnd (jsTrim st.current) overlap) :=
      jsSliceFromEnd_endsDot overlap htrimDot
    refine ⟨?_, ?_, ?_, ?_, ?_⟩
    · intro c hcmem
      rcases List.mem_append.mp hcmem with hcl | hcr
      · exact h.chunksDot c hcl
      · rw [List.mem_singleton.mp hcr]; exact htrimDot
    · refine List.Chain'.append h.chain (List.chain'_singleton _) ?_
      intro x hx y hy
      simp only [List.head?_cons, Option.mem_def, Option.some.injEq] at hy
      subst hy
      exact ⟨overlapSeed_suffix overlap x, h.link x hx⟩
    · intro hnil; simp at hnil
    · intro _
      have := endsDot_concat (jsSliceFromEnd (jsTrim st.current) overlap ++ s)
      simpa [List.append_assoc] using this
    · intro p hp
      rw [List.getLast?_concat] at hp
      injection hp with hp
      subst hp
      have hmem : ∃ x ∈ jsSliceFromEnd (jsTrim st.current) overlap, isWs x = false :=
        ⟨'.', endsDot_mem hsliceDot, isWs_dot⟩
      have hrw := jsTrim_append_dot hmem s
      rw [List.append_assoc] at hrw
      rw [hrw]
      exact ⟨s ++ ['.'], by rw [overlapSeed, List.append_assoc]⟩
  · rw [chunkStep_eq_append maxLength overlap st s hc]
    refine ⟨h.chunksDot, h.chain, ?_, ?_, ?_⟩
    · intro hnil; simp at hnil
    · intro _; exact endsDot_concat _
    · intro p hp
      have hchunks_ne : st.chunks ≠ [] := by
        intro hnil; rw [hnil] at hp; simp at hp
      have hcur_ne : st.current ≠ [] := by
        intro hnil; exact hchunks_ne (h.curNil hnil)
      have hcurDot : endsDot st.current := h.curDot hcur_ne
      have hmem : ∃ x ∈ st.current, isWs x = false :=
        ⟨'.', endsDot_mem hcurDot, isWs_dot⟩
      have hrw := jsTrim_append_dot hmem s
      rw [hrw, (jsTrim_of_endsDot hcurDot).1.symm]
      rcases h.link p hp with ⟨t, ht⟩
      exact ⟨t ++ s ++ ['.'], by rw [← ht]; simp [List.append_assoc]⟩

theorem foldl_chunkStep_inv (maxLength overlap : Nat) :
    ∀ (segs : List (List Char)) (st : ChunkAcc), ChunkInv overlap st →
      ChunkInv overlap (segs.foldl (chunkStep maxLength overlap) st) := by
  intro segs
  induction segs with
  | nil => intro st h; exact h
  | cons s rest ih =>
    intro st h
    exact ih _ (chunkStep_inv maxLength overlap st s h)

/-- Every pair of consecutive chunks produced by chunkDocument is linked by
the overlap seed of the earlier chunk. -/
theorem chunkDocument_chain (content : List Char) (maxLength overlap : Nat) :
    (chunkDocument content maxLength overlap).Chain' (overlapLink overlap) := by
  have hinv := foldl_chunkStep_inv maxLength overlap (splitSentences content) ⟨[], []⟩
    (chunkInv_init overlap)
  unfold chunkDocument
  dsimp only
  split
  · rename_i hne
    refine List.Chain'.append hinv.chain (List.chain'_singleton _) ?_
    intro x hx y hy
    simp only [List.head?_cons, Option.mem_def, Option.some.injEq] at hy
    subst hy
    exact ⟨overlapSeed_suffix overlap x, hinv.link x hx⟩
  · exact hinv.chain

end RAG

namespace RAG

/-! ## Term-weight and cosine lemmas -/

theorem lookup_calculateTFIDF (tokens : List Token) (t : Token) :
    lookup (calculateTFIDF tokens) t = (tokens.count t : ℚ) / (tokens.length : ℚ) := by
  unfold lookup calculateTFIDF
  split
  · rfl
  · rename_i hmem
    have hz : tokens.count t = 0 := by
      rw [List.count_eq_zero]
      intro hc
      exact hmem (List.mem_toFinset.mpr hc)
    rw [hz]
    simp

theorem sum_count_toFinset (tokens : List Token) :
    ∑ t ∈ tokens.toFinset, tokens.count t = tokens.length := by
  induction tokens with
  | nil => simp
  | cons a l ih =>
    rw [List.toFinset_cons]
    have hcc : ∀ t : Token, (a :: l).count t = l.count t + if t = a then 1 else 0 := by
      intro t
      by_cases h : t = a
      · subst h
        rw [if_pos rfl, List.count_cons_self]
      · rw [List.count_cons_of_ne h, if_neg h, Nat.add_zero]
    by_cases ha : a ∈ l.toFinset
    · rw [Finset.insert_eq_self.mpr ha]
      have hs : ∑ t ∈ l.toFinset, (a :: l).count t
          = ∑ t ∈ l.toFinset, (l.count t + if t = a then 1 else 0) :=
        Finset.sum_congr rfl fun t _ => hcc t
      rw [hs, Finset.sum_add_distrib, ih, Finset.sum_ite_eq' l.toFinset a fun _ => 1]
      simp [ha]
    · rw [Finset.sum_insert ha]
      have h1 : (a :: l).count a = l.count a + 1 := by rw [hcc]; simp
      have h2 : l.count a = 0 := by
        rw [List.count_eq_zero]
        intro hc
        exact ha (List.mem_toFinset.mpr hc)
      have hs : ∑ t ∈ l.toFinset, (a :: l).count t = ∑ t ∈ l.toFinset, l.count t := by
        refine Finset.sum_congr rfl fun t ht => ?_
        rw [hcc, if_neg, Nat.add_zero]
        intro hta
        exact ha (hta ▸ ht)
      rw [h1, h2, hs, ih]
      simp [Nat.add_comm]

theorem sum_lookup_calculateTFIDF (tokens : List Token) (h : tokens ≠ []) :
    ∑ t ∈ tokens.toFinset, lookup (calculateTFIDF tokens) t = 1 := by
  have hlen : (tokens.length : ℚ) ≠ 0 :=
    Nat.cast_ne_zero.mpr (List.length_pos.mpr h).ne'
  calc ∑ t ∈ tokens.toFinset, lookup (calculateTFIDF tokens) t
      = ∑ t ∈ tokens.toFinset, (tokens.count t : ℚ) / (tokens.length : ℚ) :=
        Finset.sum_congr rfl fun t _ => lookup_calculateTFIDF tokens t
    _ = (∑ t ∈ tokens.toFinset, (tokens.count t : ℚ)) / (tokens.length : ℚ) :=
        (Finset.sum_div _ _ _).symm
    _ = ((tokens.length : ℚ)) / (tokens.length : ℚ) := by
        rw [← Nat.cast_sum, sum_count_toFinset]
    _ = 1 := div_self hlen

theorem lookup_not_mem_union {v1 v2 : TermVec} {t : Token}
    (h : t ∉ v1.support ∪ v2.support) : lookup v1 t = 0 ∧ lookup v2 t = 0 := by
  rw [Finset.mem_union, not_or] at h
  unfold lookup
  rw [if_neg h.1, if_neg h.2]
  exact ⟨rfl, rfl⟩

theorem norm1_nonneg (v1 v2 : TermVec) : 0 ≤ norm1 v1 v2 :=
  Finset.sum_nonneg fun _ _ => mul_self_nonneg _

theorem norm2_nonneg (v1 v2 : TermVec) : 0 ≤ norm2 v1 v2 :=
  Finset.sum_nonneg fun _ _ => mul_self_nonneg _

theorem cauchy_dot_sq_le (v1 v2 : TermVec) :
    (dotProduct v1 v2) ^ 2 ≤ norm1 v1 v2 * norm2 v1 v2 := by
  have h := Finset.sum_mul_sq_le_sq_mul_sq (v1.support ∪ v2.support)
    (lookup v1) (lookup v2)
  have e1 : ∑ t ∈ v1.support ∪ v2.support, lookup v1 t ^ 2 = norm1 v1 v2 :=
    Finset.sum_congr rfl fun t _ => pow_two _
  have e2 : ∑ t ∈ v1.support ∪ v2.support, lookup v2 t ^ 2 = norm2 v1 v2 :=
    Finset.sum_congr rfl fun t _ => pow_two _
  rw [e1, e2] at h
  exact h

theorem lagrange_identity (A : Finset Token) (f g : Token → ℚ) :
    ∑ i ∈ A, ∑ j ∈ A, (f i * g j - f j * g i) ^ 2
      = 2 * ((∑ i ∈ A, f i * f i) * (∑ j ∈ A, g j * g j)
          - (∑ i ∈ A, f i * g i) ^ 2) := by
  have hexp : ∀ i j : Token, (f i * g j - f j * g i) ^ 2
      = (f i * f i) * (g j * g j) + (f j * f j) * (g i * g i)
        - 2 * ((f i * g i) * (f j * g j)) := by
    intro i j; ring
  have hsplit : ∑ i ∈ A, ∑ j ∈ A, (f i * g j - f j * g i) ^ 2
      = (∑ i ∈ A, ∑ j ∈ A, (f i * f i) * (g j * g j))
        + (∑ i ∈ A, ∑ j ∈ A, (f j * f j) * (g i * g i))
        - (∑ i ∈ A, ∑ j ∈ A, 2 * ((f i * g i) * (f j * g j))) := by
    have h1 : ∑ i ∈ A, ∑ j ∈ A, (f i * g j - f j * g i) ^ 2
        = ∑ i ∈ A, ∑ j ∈ A, ((f i * f i) * (g j * g j) + (f j * f j) * (g i * g i)
            - 2 * ((f i * g i) * (f j * g j))) :=
      Finset.sum_congr rfl fun i _ => Finset.sum_congr rfl fun j _ => hexp i j
    rw [h1]
    simp only [Finset.sum_add_distrib, Finset.sum_sub_distrib]
  have hA : ∑ i ∈ A, ∑ j ∈ A, (f i * f i) * (g j * g j)
      = (∑ i ∈ A, f i * f i) * (∑ j ∈ A, g j * g j) :=
    (Finset.sum_mul_sum A A (fun i => f i * f i) (fun j => g j * g j)).symm
  have hB : ∑ i ∈ A, ∑ j ∈ A, (f j * f j) * (g i * g i)
      = (∑ i ∈ A, f i * f i) * (∑ j ∈ A, g j * g j) := by
    rw [Finset.sum_comm]
    exact (Finset.sum_mul_sum A A (fun i => f i * f i) (fun j => g j * g j)).symm
  have hC : ∑ i ∈ A, ∑ j ∈ A, 2 * ((f i * g i) * (f j * g j))
      = 2 * ((∑ i ∈ A, f i * g i) * (∑ j ∈ A, f j * g j)) := by
    have hstep : ∀ i : Token, 2 * ((f i * g i) * ∑ j ∈ A, f j * g j)
        = ∑ j ∈ A, 2 * ((f i * g i) * (f j * g j)) := by
      intro i
      rw [Finset.mul_sum, Finset.mul_sum]
    calc ∑ i ∈ A, ∑ j ∈ A, 2 * ((f i * g i) * (f j * g j))
        = ∑ i ∈ A, 2 * ((f i * g i) * ∑ j ∈ A, f j * g j) :=
          Finset.sum_congr rfl fun i _ => (hstep i).symm
      _ = 2 * ∑ i ∈ A, ((f i * g i) * ∑ j ∈ A, f j * g j) :=
          (Finset.mul_sum _ _ _).symm
      _ = 2 * ((∑ i ∈ A, f i * g i) * (∑ j ∈ A, f j * g j)) := by
          rw [Finset.sum_mul]
  rw [hsplit, hA, hB, hC]
  ring

theorem cross_eq_of_cauchy_eq (v1 v2 : TermVec)
    (h : (dotProduct v1 v2) ^ 2 = norm1 v1 v2 * norm2 v1 v2) :
    ∀ s t : Token, lookup v1 s * lookup v2 t = lookup v1 t * lookup v2 s := by
  have h' := h
  unfold dotProduct norm1 norm2 at h'
  have hz : ∑ i ∈ v1.support ∪ v2.support, ∑ j ∈ v1.support ∪ v2.support,
      (lookup v1 i * lookup v2 j - lookup v1 j * lookup v2 i) ^ 2 = 0 := by
    rw [lagrange_identity (v1.support ∪ v2.support) (lookup v1) (lookup v2), ← h']
    ring
  have hall := (Finset.sum_eq_zero_iff_of_nonneg
    (fun i _ => Finset.sum_nonneg fun j _ => sq_nonneg _)).mp hz
  have hall2 : ∀ i ∈ v1.support ∪ v2.support, ∀ j ∈ v1.support ∪ v2.support,
      lookup v1 i * lookup v2 j = lookup v1 j * lookup v2 i := by
    intro i hi j hj
    have hzz := (Finset.sum_eq_zero_iff_of_nonneg (fun j _ => sq_nonneg _)).mp
      (hall i hi) j hj
    have := (pow_eq_zero_iff (two_ne_zero)).mp hzz
    exact sub_eq_zero.mp this
  intro s t
  by_cases hs : s ∈ v1.support ∪ v2.support
  · by_cases ht : t ∈ v1.support ∪ v2.support
    · exact hall2 s hs t ht
    · rcases lookup_not_mem_union ht with ⟨h1, h2⟩
      rw [h1, h2]
      ring
  · rcases lookup_not_mem_union hs with ⟨h1, h2⟩
    rw [h1, h2]
    ring

theorem cosineSimilarity_zero_left {v1 : TermVec} (h : ∀ t, lookup v1 t = 0)
    (v2 : TermVec) : cosineSimilarity v1 v2 = 0 := by
  have hz : norm1 v1 v2 = 0 := Finset.sum_eq_zero fun t _ => by rw [h t]; ring
  simp [cosineSimilarity, hz]

theorem lookup_calculateTFIDF_nil (t : Token) : lookup (calculateTFIDF []) t = 0 := by
  rw [lookup_calculateTFIDF]
  simp

end RAG

namespace RAG

/-! ## Sorting and search lemmas -/

instance : IsTotal SearchResult byScoreDesc :=
  ⟨fun a b => le_total b.score a.score⟩

instance : IsTrans SearchResult byScoreDesc :=
  ⟨fun _ _ _ hab hbc => le_trans hbc hab⟩

theorem filter_scoreEq_orderedInsert (c : ℝ) (x : SearchResult)
    (l : List SearchResult) :
    (List.orderedInsert byScoreDesc x l).filter (fun y => decide (y.score = c))
      = (x :: l).filter (fun y => decide (y.score = c)) := by
  induction l with
  | nil => rfl
  | cons y ys ih =>
    by_cases hxy : byScoreDesc x y
    · simp only [List.orderedInsert, if_pos hxy]
    · have hlt : x.score < y.score := not_le.mp hxy
      simp only [List.orderedInsert, if_neg hxy]
      rw [List.filter_cons, ih, List.filter_cons, List.filter_cons]
      by_cases hx : x.score = c
      · by_cases hy : y.score = c
        · exact absurd (hx.trans hy.symm) hlt.ne
        · simp [hx, hy, List.filter_cons]
      · by_cases hy : y.score = c
        · simp [hx, hy, List.filter_cons]
        · simp [hx, hy, List.filter_cons]

theorem filter_scoreEq_insertionSort (c : ℝ) (l : List SearchResult) :
    (List.insertionSort byScoreDesc l).filter (fun y => decide (y.score = c))
      = l.filter (fun y => decide (y.score = c)) := by
  induction l with
  | nil => rfl
  | cons x xs ih =>
    show (List.orderedInsert byScoreDesc x (List.insertionSort byScoreDesc xs)).filter _ = _
    rw [filter_scoreEq_orderedInsert, List.filter_cons, ih, List.filter_cons]

theorem filter_take_front {α : Type} (p : α → Bool) (n : Nat) (l : List α) :
    (l.take n).filter p <+: l.filter p :=
  ⟨(l.drop n).filter p, by rw [← List.filter_append, List.take_append_drop]⟩

theorem mem_searchCandidates_minScore (st : RAGState) (q : List Char)
    (opts : SearchOptions) {r : SearchResult}
    (hr : r ∈ searchCandidates st q opts) : opts.minScore ≤ r.score := by
  dsimp only [searchCandidates] at hr
  rw [List.mem_filterMap] at hr
  obtain ⟨chunk, _, heq⟩ := hr
  by_cases h1 : skipByCategory opts.category chunk = true
  · rw [if_pos h1] at heq
    cases heq
  · rw [if_neg h1] at heq
    by_cases h2 : opts.minScore ≤ cosineSimilarity (calculateTFIDF (tokenize q)) chunk.embedding
    · rw [if_pos h2] at heq
      injection heq with heq
      subst heq
      exact h2
    · rw [if_neg h2] at heq
      cases heq

theorem search_ok_iff (st : RAGState) (q : List Char) (opts : SearchOptions)
    (res : List SearchResult) :
    search st q opts = Except.ok res ↔
      st.initialized = true ∧ res = rankedSearch st q opts := by
  unfold search
  split
  · rename_i h
    simp [h, eq_comm]
  · rename_i h
    simp [h]

theorem searchCandidates_nil_of_tokenless (st : RAGState) (q : List Char)
    (opts : SearchOptions) (hq : tokenize q = []) (hms : 0 < opts.minScore) :
    searchCandidates st q opts = [] := by
  dsimp only [searchCandidates]
  rw [List.filterMap_eq_nil_iff]
  intro chunk _
  split_ifs with h1 h2
  · rfl
  · exfalso
    rw [hq] at h2
    rw [cosineSimilarity_zero_left lookup_calculateTFIDF_nil chunk.embedding] at h2
    exact absurd (lt_of_lt_of_le hms h2) (lt_irrefl 0)
  · rfl

theorem search_tokenless (st : RAGState) (q : List Char) (opts : SearchOptions)
    (hini : st.initialized = true) (hq : tokenize q = []) (hms : 0 < opts.minScore) :
    search st q opts = Except.ok [] := by
  rw [search_ok_iff]
  refine ⟨hini, ?_⟩
  rw [rankedSearch, searchCandidates_nil_of_tokenless st q opts hq hms]
  simp

end RAG

namespace RAG

/-! ## Claim theorems -/

/-- Claim C3: for every token sequence, calculateTFIDF assigns to each term its
occurrence count divided by the total token count and nothing else (terms
absent from the sequence get weight 0; no inverse-document-frequency factor),
and for every non-empty token sequence the weights over the distinct tokens
sum to exactly 1. -/
theorem claim_C3_tf_normalized (tokens : List Token) :
    (∀ t : Token, lookup (calculateTFIDF tokens) t
        = (tokens.count t : ℚ) / (tokens.length : ℚ)) ∧
    (tokens ≠ [] →
      ∑ t ∈ tokens.toFinset, lookup (calculateTFIDF tokens) t = 1) :=
  ⟨lookup_calculateTFIDF tokens, sum_lookup_calculateTFIDF tokens⟩

/-- Witness for C3: the weight distribution of the concrete token sequence
[abc, abc, xyz] sums to 1. -/
theorem claim_C3_witness :
    ∑ t ∈ ([['a','b','c'], ['a','b','c'], ['x','y','z']] : List Token).toFinset,
      lookup (calculateTFIDF [['a','b','c'], ['a','b','c'], ['x','y','z']]) t = 1 :=
  (claim_C3_tf_normalized [['a','b','c'], ['a','b','c'], ['x','y','z']]).2 (by decide)

/-- Claim C2: for term-weight vectors with non-negative weights,
cosineSimilarity returns 0 when either accumulated square norm is 0 and
otherwise the dot product over the union of the key sets divided by the
product of the Euclidean norms; the value always lies in [0, 1]; and a value
of exactly 1 forces the two vectors to be proportional (all two-by-two cross
products of weights agree). -/
theorem claim_C2_cosine (v1 v2 : TermVec)
    (h1 : ∀ t, 0 ≤ lookup v1 t) (h2 : ∀ t, 0 ≤ lookup v2 t) :
    (norm1 v1 v2 = 0 ∨ norm2 v1 v2 = 0 → cosineSimilarity v1 v2 = 0) ∧
    (norm1 v1 v2 ≠ 0 → norm2 v1 v2 ≠ 0 →
      cosineSimilarity v1 v2 = (dotProduct v1 v2 : ℝ)
        / (Real.sqrt ((norm1 v1 v2 : ℝ)) * Real.sqrt ((norm2 v1 v2 : ℝ)))) ∧
    (0 ≤ cosineSimilarity v1 v2 ∧ cosineSimilarity v1 v2 ≤ 1) ∧
    (cosineSimilarity v1 v2 = 1 →
      ∀ s t : Token, lookup v1 s * lookup v2 t = lookup v1 t * lookup v2 s) := by
  by_cases hz : norm1 v1 v2 = 0 ∨ norm2 v1 v2 = 0
  · have hc0 : cosineSimilarity v1 v2 = 0 := by
      unfold cosineSimilarity
      rw [if_pos hz]
    refine ⟨fun _ => hc0, ?_, ?_, ?_⟩
    · intro hz1 hz2
      exact absurd hz (not_or.mpr ⟨hz1, hz2⟩)
    · rw [hc0]
      norm_num
    · intro h1'
      rw [hc0] at h1'
      norm_num at h1'
  · push_neg at hz
    obtain ⟨hz1, hz2⟩ := hz
    have heq : cosineSimilarity v1 v2 = (dotProduct v1 v2 : ℝ)
        / (Real.sqrt ((norm1 v1 v2 : ℝ)) * Real.sqrt ((norm2 v1 v2 : ℝ))) := by
      unfold cosineSimilarity
      rw [if_neg (not_or.mpr ⟨hz1, hz2⟩)]
    have hn1pos : (0:ℚ) < norm1 v1 v2 := lt_of_le_of_ne (norm1_nonneg v1 v2) (Ne.symm hz1)
    have hn2pos : (0:ℚ) < norm2 v1 v2 := lt_of_le_of_ne (norm2_nonneg v1 v2) (Ne.symm hz2)
    have hn1r : (0:ℝ) < ((norm1 v1 v2 : ℝ)) := by exact_mod_cast hn1pos
    have hn2r : (0:ℝ) < ((norm2 v1 v2 : ℝ)) := by exact_mod_cast hn2pos
    have hden : 0 < Real.sqrt ((norm1 v1 v2 : ℝ)) * Real.sqrt ((norm2 v1 v2 : ℝ)) :=
      mul_pos (Real.sqrt_pos.mpr hn1r) (Real.sqrt_pos.mpr hn2r)
    have hdot0 : (0:ℚ) ≤ dotProduct v1 v2 :=
      Finset.sum_nonneg fun t _ => mul_nonneg (h1 t) (h2 t)
    have hdot0r : (0:ℝ) ≤ ((dotProduct v1 v2 : ℝ)) := by exact_mod_cast hdot0
    have hcau : ((dotProduct v1 v2 : ℝ)) ^ 2
        ≤ ((norm1 v1 v2 : ℝ)) * ((norm2 v1 v2 : ℝ)) := by
      exact_mod_cast cauchy_dot_sq_le v1 v2
    have hbound : ((dotProduct v1 v2 : ℝ))
        ≤ Real.sqrt ((norm1 v1 v2 : ℝ)) * Real.sqrt ((norm2 v1 v2 : ℝ)) := by
      rw [← Real.sqrt_mul hn1r.le]
      exact (Real.le_sqrt hdot0r (mul_nonneg hn1r.le hn2r.le)).mpr hcau
    refine ⟨?_, fun _ _ => heq, ⟨?_, ?_⟩, ?_⟩
    · intro hz'
      exact absurd hz' (not_or.mpr ⟨hz1, hz2⟩)
    · rw [heq]
      exact div_nonneg hdot0r hden.le
    · rw [heq]
      exact (div_le_one hden).mpr hbound
    · intro hone s t
      rw [heq] at hone
      have hdd : ((dotProduct v1 v2 : ℝ))
          = Real.sqrt ((norm1 v1 v2 : ℝ)) * Real.sqrt ((norm2 v1 v2 : ℝ)) :=
        (div_eq_one_iff_eq hden.ne').mp hone
      have hsq : ((dotProduct v1 v2 : ℝ)) ^ 2
          = ((norm1 v1 v2 : ℝ)) * ((norm2 v1 v2 : ℝ)) := by
        rw [hdd, mul_pow, Real.sq_sqrt hn1r.le, Real.sq_sqrt hn2r.le]
      have hsqq : (dotProduct v1 v2) ^ 2 = norm1 v1 v2 * norm2 v1 v2 := by
        exact_mod_cast hsq
      exact cross_eq_of_cauchy_eq v1 v2 hsqq s t

/-- A concrete non-negative term-weight vector used to instantiate C2. -/
def c2vec : TermVec := ⟨{['a','b','c']}, fun _ => 1⟩

theorem c2vec_lookup_nonneg : ∀ t, 0 ≤ lookup c2vec t := by
  intro t
  unfold lookup c2vec
  split
  · norm_num
  · exact le_refl 0

/-- Witness for C2 at the concrete pair (c2vec, c2vec). -/
theorem claim_C2_witness :
    (norm1 c2vec c2vec = 0 ∨ norm2 c2vec c2vec = 0 →
      cosineSimilarity c2vec c2vec = 0) ∧
    (norm1 c2vec c2vec ≠ 0 → norm2 c2vec c2vec ≠ 0 →
      cosineSimilarity c2vec c2vec = (dotProduct c2vec c2vec : ℝ)
        / (Real.sqrt ((norm1 c2vec c2vec : ℝ)) * Real.sqrt ((norm2 c2vec c2vec : ℝ)))) ∧
    (0 ≤ cosineSimilarity c2vec c2vec ∧ cosineSimilarity c2vec c2vec ≤ 1) ∧
    (cosineSimilarity c2vec c2vec = 1 →
      ∀ s t : Token, lookup c2vec s * lookup c2vec t = lookup c2vec t * lookup c2vec s) :=
  claim_C2_cosine c2vec c2vec c2vec_lookup_nonneg c2vec_lookup_nonneg

end RAG

namespace RAG

/-- Claim C8: every query issued while the initialized flag is down fails
with the not-initialized error instead of returning an empty result list. -/
theorem claim_C8_not_initialized (st : RAGState) (query : List Char)
    (opts : SearchOptions) (h : st.initialized = false) :
    search st query opts = Except.error RagError.notInitialized := by
  unfold search
  rw [h]
  simp

/-- Witness for C8 at a concrete uninitialized state. -/
theorem claim_C8_witness :
    search ⟨false, [], []⟩ [] ⟨none, 5, 1/10⟩
      = Except.error RagError.notInitialized :=
  claim_C8_not_initialized ⟨false, [], []⟩ [] ⟨none, 5, 1/10⟩ rfl

/-- A placeholder chunk with the given ordinal, used to build the concrete
seven-chunk index of the C5 evidence. -/
def c5chunk (n : Nat) : Chunk :=
  ⟨(0, n), 0, [], [], [], [], n, ⟨∅, fun _ => 0⟩⟩

/-- Evidence for C5: getDocumentStats on a state with zero documents returns
no finite average (the JS code computes 0/0, which is NaN, not the zero the
specification requires), while on an index of 3 documents with 7 chunks the
average is 7/3 as claimed. -/
theorem claim_C5_stats_divergence :
    (getDocumentStats ⟨false, [], []⟩).avgChunksPerDocument = none ∧
    (getDocumentStats ⟨true,
        [⟨0, [], [], [], [], 2⟩, ⟨1, [], [], [], [], 3⟩, ⟨2, [], [], [], [], 2⟩],
        [c5chunk 0, c5chunk 1, c5chunk 2, c5chunk 3,
         c5chunk 4, c5chunk 5, c5chunk 6]⟩).avgChunksPerDocument
      = some (7 / 3 : ℚ) := by
  constructor
  · rfl
  · norm_num [getDocumentStats]

/-- Claim C10: chunking an empty or whitespace-only body yields exactly one
passage consisting of a lone sentence terminator, and ingesting a document
with such content therefore appends exactly one queryable passage, whose text
is the lone terminator, to the index. -/
theorem claim_C10_blank_chunk (content : List Char)
    (h : ∀ c ∈ content, isWs c = true) :
    chunkDocument content 500 50 = [['.']] ∧
    ∀ (st : RAGState) (doc : DocumentInput) (id : Nat), doc.content = content →
      (addDocument st doc id).documentChunks.map (fun ch => ch.content)
        = st.documentChunks.map (fun ch => ch.content) ++ [['.']] := by
  have hnd : ∀ c ∈ content, isDelim c = false := by
    intro c hc
    have hw := h c hc
    unfold isWs at hw
    have hcases : ((c = ' ' ∨ c = '\t') ∨ c = '\r') ∨ c = '\n' := by
      simpa [Char.isWhitespace] using hw
    rcases hcases with ((rfl | rfl) | rfl) | rfl <;> rfl
  have hsplit : splitSentences content = [content] := by
    unfold splitSentences splitRuns
    have : ∀ (cs : List Char), (∀ c ∈ cs, isDelim c = false) →
        splitRunsAux isDelim false cs = [cs] := by
      intro cs
      induction cs with
      | nil => intro _; rfl
      | cons c cs ih =>
        intro hall
        have hc : isDelim c = false := hall c (by simp)
        simp only [splitRunsAux, hc, Bool.false_eq_true, if_false]
        rw [ih fun x hx => hall x (by simp [hx])]
        rfl
    exact this content hnd
  have hfold : (splitSentences content).foldl (chunkStep 500 50) ⟨[], []⟩
      = ⟨[], content ++ ['.']⟩ := by
    rw [hsplit]
    simp only [List.foldl_cons, List.foldl_nil]
    rw [chunkStep_eq_append 500 50 ⟨[], []⟩ content
      (fun hc => absurd hc.2 (lt_irrefl 0))]
    simp
  have htrim : jsTrim (content ++ ['.']) = ['.'] := by
    unfold jsTrim trimLeft trimRight
    rw [dropWhile_append_of_forall ['.'] h]
    rfl
  have hchunk : chunkDocument content 500 50 = [['.']] := by
    unfold chunkDocument
    rw [hfold]
    dsimp only
    rw [htrim]
    simp
  refine ⟨hchunk, ?_⟩
  intro st doc id hdoc
  unfold addDocument
  dsimp only
  rw [hdoc, hchunk]
  simp [List.mapIdx_cons, List.mapIdx_nil]

/-- Witness for C10 at the concrete whitespace-only body consisting of one
space. -/
theorem claim_C10_witness :
    chunkDocument [' '] 500 50 = [['.']] ∧
    ∀ (st : RAGState) (doc : DocumentInput) (id : Nat), doc.content = [' '] →
      (addDocument st doc id).documentChunks.map (fun ch => ch.content)
        = st.documentChunks.map (fun ch => ch.content) ++ [['.']] :=
  claim_C10_blank_chunk [' '] (by decide)

end RAG

namespace RAG

/-- Claim C7 (amended): for every body strictly shorter than 500 characters,
chunking yields exactly one passage, namely the terminator-normalized body
(every split segment followed by the synthetic terminator) with surrounding
whitespace trimmed. -/
theorem claim_C7_short_body (content : List Char) (h : content.length < 500) :
    chunkDocument content 500 50
      = [jsTrim (normalizeSegs (splitSentences content))] :=
  chunkDocument_single content 500 50
    (le_trans (normalizeSegs_length_le content) (by omega))

/-- Witness for C7 at the concrete three-character body hey. -/
theorem claim_C7_witness :
    chunkDocument ['h','e','y'] 500 50
      = [jsTrim (normalizeSegs (splitSentences ['h','e','y']))] :=
  claim_C7_short_body ['h','e','y'] (by decide)

/-- Counterexample for C7 as stated: the two-character body consisting of a
space and the letter a is shorter than 500 characters, but its single chunk
is the trimmed normalized body a., not the untrimmed normalized body
space-a-dot. -/
theorem claim_C7_cex :
    ([' ', 'a'] : List Char).length < 500 ∧
    chunkDocument [' ', 'a'] 500 50
      ≠ [normalizeSegs (splitSentences [' ', 'a'])] := by
  decide

/-- Claim C6 (amended): consecutive chunks produced by chunkDocument with the
default maxLength 500 and overlap 50 are linked by the overlap seed: the last
50 characters of a chunk, after dropping leading whitespace, form both a
suffix of that chunk and a prefix of the next chunk. -/
theorem claim_C6_overlap (content : List Char) :
    (chunkDocument content 500 50).Chain' (overlapLink 50) :=
  chunkDocument_chain content 500 50

end RAG

namespace RAG

/-- The concrete body of the C6 counterexample: a three-character first
sentence followed by a 499-character second sentence, which forces a chunk
split. -/
def c6body : List Char := ['a','b','.'] ++ List.replicate 499 'x'

set_option maxRecDepth 10000 in
theorem c6body_chunks :
    chunkDocument c6body 500 50
      = [['a','b','.'], ['a','b','.'] ++ List.replicate 499 'x' ++ ['.']] := by
  decide

set_option maxRecDepth 10000 in
/-- Counterexample for C6 as stated: chunking c6body yields two passages, and
the first 50 characters of the second passage are not a suffix of the first
passage (which has only 3 characters; the whole 3-character first chunk is
the seed instead). -/
theorem claim_C6_cex :
    2 ≤ (chunkDocument c6body 500 50).length ∧
    ¬ (chunkDocument c6body 500 50).Chain' (fun a b => (b.take 50) <:+ a) := by
  rw [c6body_chunks]
  refine ⟨by decide, ?_⟩
  intro hch
  have hlen := (List.chain'_cons.mp hch).1.length_le
  rw [List.length_take] at hlen
  exact absurd hlen (by decide)

end RAG

namespace RAG

/-- A concrete indexed chunk used by the C4 counterexample. -/
def c4chunk : Chunk :=
  ⟨(0, 0), 0, ['m'], ['m','a','t','h'], ['m','a','t','h'], [], 0,
    calculateTFIDF (tokenize ['m','a','t','h'])⟩

/-- Counterexample for C4 as stated: on an initialized index holding one
chunk, RAGSystem.search with a whitespace-only query and the default options
does not fail with a validation error; it silently returns the empty result
list. -/
theorem claim_C4_cex :
    search ⟨true, [], [c4chunk]⟩ [' '] ⟨none, 5, 1/10⟩ = Except.ok [] :=
  search_tokenless ⟨true, [], [c4chunk]⟩ [' '] ⟨none, 5, 1/10⟩ rfl (by decide)
    (by norm_num)

/-- Claim C4 (amended): the empty-query validation lives in the /search route
handler, not in the engine: a missing query or a whitespace-only query is
answered with the 400 validation response before RAGSystem.search is invoked. -/
theorem claim_C4_route_validates (st : RAGState) (opts : SearchOptions)
    (q : List Char) (h : ∀ c ∈ q, isWs c = true) :
    searchRoute st none opts = RouteResponse.badRequest ∧
    searchRoute st (some q) opts = RouteResponse.badRequest := by
  constructor
  · rfl
  · unfold searchRoute
    dsimp only
    have htl : trimLeft q = [] := List.dropWhile_eq_nil_iff.mpr h
    have ht : jsTrim q = [] := by
      unfold jsTrim trimRight
      rw [htl]
      rfl
    rw [ht]
    simp

/-- Witness for the amended C4 at the concrete whitespace-only query. -/
theorem claim_C4_witness :
    searchRoute ⟨true, [], []⟩ none ⟨none, 5, 1/10⟩ = RouteResponse.badRequest ∧
    searchRoute ⟨true, [], []⟩ (some [' ']) ⟨none, 5, 1/10⟩
      = RouteResponse.badRequest :=
  claim_C4_route_validates ⟨true, [], []⟩ ⟨none, 5, 1/10⟩ [' '] (by decide)

end RAG

namespace RAG

/-- Claim C9: answerQuestion invokes search with maxResults 3 and the default
minScore (so its searchResults are exactly the ranked results for those
options), its context text is the matched passage bodies joined by blank
lines followed, after a blank line, by the supplementary context lines joined
by single newlines (the second part only when supplementary context is
present), and hasRelevantInfo holds exactly when at least one passage was
returned. -/
theorem claim_C9_answer (st : RAGState) (q : List Char) (ctx : List (List Char))
    (out : QAResult) (h : answerQuestion st q ctx = Except.ok out) :
    out.searchResults = rankedSearch st q ⟨none, 3, 1/10⟩ ∧
    out.context = List.intercalate ['\n','\n']
        (out.searchResults.map fun r => r.chunk.content)
      ++ (if ctx = [] then [] else ['\n','\n'] ++ List.intercalate ['\n'] ctx) ∧
    (out.hasRelevantInfo = true ↔ out.searchResults ≠ []) := by
  unfold answerQuestion at h
  cases hs : search st q ⟨none, 3, 1/10⟩ with
  | error e =>
    rw [hs] at h
    cases h
  | ok rs =>
    rw [hs] at h
    dsimp only at h
    injection h with h
    subst h
    obtain ⟨_, hrs⟩ := (search_ok_iff st q ⟨none, 3, 1/10⟩ rs).mp hs
    dsimp only
    refine ⟨hrs, ?_, ?_⟩
    · have hctx1 : (if 0 < rs.length then
          List.intercalate ['\n','\n'] (rs.map fun r => r.chunk.content) else [])
          = List.intercalate ['\n','\n'] (rs.map fun r => r.chunk.content) := by
        cases rs with
        | nil => rfl
        | cons a l => simp
      rw [hctx1]
      cases ctx with
      | nil => simp
      | cons a l => simp [List.append_assoc]
    · cases rs with
      | nil => simp
      | cons a l => simp

/-- Witness for C9 at a concrete initialized empty index, empty question and
empty supplementary context. -/
theorem claim_C9_witness :
    (QAResult.mk [] [] [] false).searchResults
        = rankedSearch ⟨true, [], []⟩ [] ⟨none, 3, 1/10⟩ ∧
    (QAResult.mk [] [] [] false).context = List.intercalate ['\n','\n']
        ((QAResult.mk [] [] [] false).searchResults.map fun r => r.chunk.content)
      ++ (if ([] : List (List Char)) = [] then []
          else ['\n','\n'] ++ List.intercalate ['\n'] ([] : List (List Char))) ∧
    ((QAResult.mk [] [] [] false).hasRelevantInfo = true
        ↔ (QAResult.mk [] [] [] false).searchResults ≠ []) :=
  claim_C9_answer ⟨true, [], []⟩ [] [] ⟨[], [], [], false⟩ rfl

/-- Claim C1: whenever search succeeds, every returned result scores at least
minScore, the results are sorted by score in descending order, for every
score value the results carrying that score appear in the same order as in
the candidate scan of the index (stability), and at most maxResults results
are returned. -/
theorem claim_C1_search_ranked (st : RAGState) (query : List Char)
    (opts : SearchOptions) (res : List SearchResult)
    (h : search st query opts = Except.ok res) :
    (∀ r ∈ res, opts.minScore ≤ r.score) ∧
    List.Sorted byScoreDesc res ∧
    (∀ c : ℝ, res.filter (fun r => decide (r.score = c)) <+:
      (searchCandidates st query opts).filter (fun r => decide (r.score = c))) ∧
    res.length ≤ opts.maxResults := by
  obtain ⟨_, hres⟩ := (search_ok_iff st query opts res).mp h
  subst hres
  refine ⟨?_, ?_, ?_, ?_⟩
  · intro r hr
    rw [rankedSearch] at hr
    have hr1 : r ∈ List.insertionSort byScoreDesc (searchCandidates st query opts) :=
      (List.take_sublist _ _).subset hr
    have hr2 : r ∈ searchCandidates st query opts :=
      (List.perm_insertionSort byScoreDesc _).mem_iff.mp hr1
    exact mem_searchCandidates_minScore st query opts hr2
  · rw [rankedSearch]
    exact List.Pairwise.sublist (List.take_sublist _ _)
      (List.sorted_insertionSort byScoreDesc _)
  · intro c
    rw [rankedSearch]
    have hpre := filter_take_front (fun r => decide (r.score = c)) opts.maxResults
      (List.insertionSort byScoreDesc (searchCandidates st query opts))
    rw [filter_scoreEq_insertionSort c (searchCandidates st query opts)] at hpre
    exact hpre
  · rw [rankedSearch, List.length_take]
    exact min_le_left _ _

/-- Witness for C1 at a concrete initialized empty index with the default
options. -/
theorem claim_C1_witness :
    (∀ r ∈ ([] : List SearchResult), (⟨none, 5, 1/10⟩ : SearchOptions).minScore ≤ r.score) ∧
    List.Sorted byScoreDesc ([] : List SearchResult) ∧
    (∀ c : ℝ, ([] : List SearchResult).filter (fun r => decide (r.score = c)) <+:
      (searchCandidates ⟨true, [], []⟩ [] ⟨none, 5, 1/10⟩).filter
        (fun r => decide (r.score = c))) ∧
    ([] : List SearchResult).length ≤ (⟨none, 5, 1/10⟩ : SearchOptions).maxResults :=
  claim_C1_search_ranked ⟨true, [], []⟩ [] ⟨none, 5, 1/10⟩ [] rfl

end RAG
